import Mathlib

/-!
Shallow embedding of the MDS collector of `ceph/mds.go` (ceph_exporter).

Go strings are modelled as `List Char`; Go's fallible operations return
`Option`.  The `regexp` pattern `descRegex` is embedded as a small regex
AST whose quantifiers all range over single-character classes (as in the
source pattern), matched by a backtracking matcher with Go's
leftmost-first (Perl-style) submatch semantics, which is what
`regexp.FindStringSubmatch` guarantees.
-/

set_option autoImplicit false
set_option maxRecDepth 1000000

namespace CephExporter

/-! ### Character classes of `descRegex` (RE2 semantics, no flags) -/

/-- `[0-9]` / `\d`. -/
def isDigitC (c : Char) : Bool := decide ('0' ≤ c) && decide (c ≤ '9')

/-- ASCII lower-case letter. -/
def isLowerC (c : Char) : Bool := decide ('a' ≤ c) && decide (c ≤ 'z')

/-- ASCII upper-case letter. -/
def isUpperC (c : Char) : Bool := decide ('A' ≤ c) && decide (c ≤ 'Z')

/-- `[a-zA-Z]`. -/
def isLetterC (c : Char) : Bool := isLowerC c || isUpperC c

/-- `\w` = `[0-9A-Za-z_]`. -/
def isWordC (c : Char) : Bool := isLetterC c || isDigitC c || decide (c = '_')

/-- `\s` = `[\t\n\f\r ]` in RE2. -/
def isSpaceC (c : Char) : Bool :=
  decide (c = '\t') || decide (c = '\n') || decide (c = '\x0c') ||
    decide (c = '\r') || decide (c = ' ')

/-- `[0-9a-fA-F]`. -/
def isHexC (c : Char) : Bool :=
  isDigitC c || (decide ('a' ≤ c) && decide (c ≤ 'f')) ||
    (decide ('A' ≤ c) && decide (c ≤ 'F'))

/-- `.` without the `s` flag: any character except newline. -/
def isDotC (c : Char) : Bool := decide (c ≠ '\n')

/-- `[^a-zA-Z\d:]` (a negated class does match newline). -/
def isNotAlnumColonC (c : Char) : Bool :=
  !(isLetterC c || isDigitC c || decide (c = ':'))

/-- A single-character class appearing in `descRegex`. -/
inductive CC where
  | digit
  | word
  | space
  | dot
  | hex
  | notAlnumColon
deriving DecidableEq

def CC.mem : CC → Char → Bool
  | .digit, c => isDigitC c
  | .word, c => isWordC c
  | .space, c => isSpaceC c
  | .dot, c => isDotC c
  | .hex, c => isHexC c
  | .notAlnumColon, c => isNotAlnumColonC c

/-! ### Regex AST

Every quantifier in `descRegex` applies to a single-character class, so
the AST only needs quantified classes, not quantified subexpressions. -/

inductive RE where
  | eps
  | str (l : List Char)
  | cls (cc : CC)
  | starG (cc : CC)
  | plusG (cc : CC)
  | plusL (cc : CC)
  | seq (a b : RE)
  | alt (a b : RE)
  | group (idx : Nat) (r : RE)

/-- The four named capture groups of `descRegex`. -/
structure Caps where
  clientid : Option (List Char) := none
  cid : Option (List Char) := none
  fsoptype : Option (List Char) := none
  inode : Option (List Char) := none
deriving DecidableEq, Inhabited

def setCap (i : Nat) (v : List Char) (cp : Caps) : Caps :=
  match i with
  | 1 => { cp with clientid := some v }
  | 2 => { cp with cid := some v }
  | 3 => { cp with fsoptype := some v }
  | 4 => { cp with inode := some v }
  | _ => cp

/-- Consume the literal `l` from the front of `s`. -/
def stripLit (l s : List Char) : Option (List Char) :=
  match l, s with
  | [], s => some s
  | _ :: _, [] => none
  | a :: l2, b :: s2 => if a = b then stripLit l2 s2 else none

/-- Greedy `cc*`: try the longest extension first, backtracking into `k`. -/
def starGreedy (cc : CC) (k : List Char → Caps → Option Caps) :
    List Char → Caps → Option Caps
  | [], cp => k [] cp
  | c :: r, cp =>
    if cc.mem c then
      match starGreedy cc k r cp with
      | some v => some v
      | none => k (c :: r) cp
    else k (c :: r) cp

/-- Lazy `cc*`: try the shortest extension first. -/
def starLazy (cc : CC) (k : List Char → Caps → Option Caps) :
    List Char → Caps → Option Caps
  | s, cp =>
    match k s cp with
    | some v => some v
    | none =>
      match s with
      | [] => none
      | c :: r => if cc.mem c then starLazy cc k r cp else none

/-- Backtracking matcher in continuation-passing style.  Alternation is
leftmost-first, greedy quantifiers prefer longer matches, lazy ones
shorter, exactly Go `regexp`'s leftmost-first submatch semantics. -/
def mat : RE → List Char → Caps → (List Char → Caps → Option Caps) → Option Caps
  | .eps, s, cp, k => k s cp
  | .str l, s, cp, k =>
    match stripLit l s with
    | some s2 => k s2 cp
    | none => none
  | .cls cc, s, cp, k =>
    match s with
    | [] => none
    | c :: r => if cc.mem c then k r cp else none
  | .starG cc, s, cp, k => starGreedy cc k s cp
  | .plusG cc, s, cp, k =>
    match s with
    | [] => none
    | c :: r => if cc.mem c then starGreedy cc k r cp else none
  | .plusL cc, s, cp, k =>
    match s with
    | [] => none
    | c :: r => if cc.mem c then starLazy cc k r cp else none
  | .seq a b, s, cp, k => mat a s cp (fun s2 cp2 => mat b s2 cp2 k)
  | .alt a b, s, cp, k =>
    match mat a s cp k with
    | some v => some v
    | none => mat b s cp k
  | .group i r, s, cp, k =>
    mat r s cp (fun s2 cp2 => k s2 (setCap i (s.take (s.length - s2.length)) cp2))

/-- `FindStringSubmatch`-style search: try each start position from the
left, returning the captures of the first successful match. -/
def reFind (r : RE) : List Char → Option Caps
  | [] => mat r [] {} fun _ cp => some cp
  | c :: t =>
    match mat r (c :: t) {} (fun _ cp => some cp) with
    | some cp => some cp
    | none => reFind r t

/-- The AST of
`client_request\(client\.(?P<clientid>[0-9].+?):(?P<cid>[0-9].+?)\s(?P<fsoptype>\w+)\s.*#(?P<inode>0x[0-9a-fA-F]+|[0-9]+)[^a-zA-Z\d:].*`
from `ceph/mds.go`. -/
def descRegex : RE :=
  .seq (.str "client_request(client.".data)
  (.seq (.group 1 (.seq (.cls .digit) (.plusL .dot)))
  (.seq (.str ":".data)
  (.seq (.group 2 (.seq (.cls .digit) (.plusL .dot)))
  (.seq (.cls .space)
  (.seq (.group 3 (.plusG .word))
  (.seq (.cls .space)
  (.seq (.starG .dot)
  (.seq (.str "#".data)
  (.seq (.group 4 (.alt (.seq (.str "0x".data) (.plusG .hex)) (.plusG .digit)))
  (.seq (.cls .notAlnumColon)
  (.starG .dot)))))))))))

/-- Result of `extractOpFromDescription` (struct `opDesc` in the source). -/
structure opDesc where
  fsOpType : List Char
  inode : List Char
  clientID : List Char
deriving DecidableEq

/-- `extractOpFromDescription` from `ceph/mds.go`: match `descRegex`
against the description; a failed match (or a missing named group) is a
parse error, modelled as `none`. -/
def extractOpFromDescription (desc : List Char) : Option opDesc :=
  match reFind descRegex desc with
  | none => none
  | some caps =>
    match caps.clientid, caps.fsoptype, caps.inode with
    | some a, some b, some c => some { fsOpType := b, inode := c, clientID := a }
    | _, _, _ => none

/-! ### `mdsLabels` and its gob-based canonical key (`Hash`/`UnHash`) -/

/-- `mdsLabels` from `ceph/mds.go`: the slow-op label tuple.  Fields keep
their source names and order (the order gob serialises them in). -/
structure mdsLabels where
  FSName : List Char := []
  MDSName : List Char := []
  State : List Char := []
  OpType : List Char := []
  FSOpType : List Char := []
  FlagPoint : List Char := []
  Inode : List Char := []
deriving DecidableEq, Inhabited

/-- The ordered exported fields of `mdsLabels`, as gob transmits them. -/
def mdsLabels.fields (ml : mdsLabels) : List (List Char) :=
  [ml.FSName, ml.MDSName, ml.State, ml.OpType, ml.FSOpType, ml.FlagPoint, ml.Inode]

/-- gob struct-body encoding: each field with a non-zero (non-empty)
value is transmitted as the delta from the previously transmitted field
number, then the string as its length followed by its characters;
zero-valued fields are omitted; a zero delta terminates the struct.
gob's byte-level unsigned-integer encoding is injective and
self-delimiting, so the model collapses each such integer to one `Nat`
token; characters stand for their raw bytes. -/
def encFields : Nat → Nat → List (List Char) → List Nat
  | _, _, [] => [0]
  | idx, prev, f :: rest =>
    if f = [] then encFields (idx + 1) prev rest
    else (idx - prev) :: f.length :: (f.map Char.toNat ++ encFields (idx + 1) idx rest)

/-- `mdsLabels.Hash`: gob-encode the struct into a key.  Every call uses
a fresh `gob.Encoder`, so the type-definition message and the message
framing are a constant prefix determined by the type alone; being
value-independent they affect neither injectivity nor the round-trip and
are omitted from the model. -/
def mdsLabels.Hash (ml : mdsLabels) : List Nat :=
  encFields 1 0 ml.fields

/-- Write field number `k` (1-based, gob field numbering) of `mdsLabels`. -/
def setField (k : Nat) (v : List Char) (ml : mdsLabels) : mdsLabels :=
  match k with
  | 1 => { ml with FSName := v }
  | 2 => { ml with MDSName := v }
  | 3 => { ml with State := v }
  | 4 => { ml with OpType := v }
  | 5 => { ml with FSOpType := v }
  | 6 => { ml with FlagPoint := v }
  | 7 => { ml with Inode := v }
  | _ => ml

/-- Read field number `k` of `mdsLabels` (empty outside 1..7). -/
def getField (k : Nat) (ml : mdsLabels) : List Char :=
  match k with
  | 1 => ml.FSName
  | 2 => ml.MDSName
  | 3 => ml.State
  | 4 => ml.OpType
  | 5 => ml.FSOpType
  | 6 => ml.FlagPoint
  | 7 => ml.Inode
  | _ => []

/-- gob struct-body decoding: read field deltas and string contents,
leaving untransmitted fields at their zero value.  The fuel argument
only bounds the recursion; any bound larger than the number of decoded
fields suffices. -/
def decFields : Nat → Nat → mdsLabels → List Nat → Option mdsLabels
  | 0, _, _, _ => none
  | _ + 1, _, acc, [0] => some acc
  | fuel + 1, prev, acc, d :: len :: rest =>
    if d = 0 then none
    else if rest.length < len then none
    else
      decFields fuel (prev + d) (setField (prev + d) ((rest.take len).map Char.ofNat) acc)
        (rest.drop len)
  | _ + 1, _, _, _ => none

/-- `mdsLabels.UnHash`: gob-decode a key into a fresh zero-valued
`mdsLabels` (the source decodes into a freshly declared `var ml
mdsLabels`); a malformed key is a decode error, modelled as `none`. -/
def mdsLabels.UnHash (h : List Nat) : Option mdsLabels :=
  decFields (h.length + 8) 0 {} h

/-! ### Slow-op aggregation (`collectMDSSlowOps`) -/

/-- Metric kinds of `prometheus.MustNewConstMetric`. -/
inductive SampleKind where
  | gauge
  | counter
deriving DecidableEq

/-- A produced metric sample.  The source passes the value as `float64`,
converted from an `int32` counter; `float64` represents every `int32`
exactly, so the value is modelled as `Int`. -/
structure MetricSample where
  name : List Char
  kind : SampleKind
  value : Int
  labelValues : List (List Char)
deriving DecidableEq

/-- Two's-complement wrap of a `Nat` count into Go's `int32`, the
counter type used by the aggregation map (`new(int32)`,
`atomic.AddInt32(v, 1)`). -/
def int32wrap (n : Nat) : Int := ((n : Int) + 2 ^ 31) % 2 ^ 32 - 2 ^ 31

/-- The fields of one blocked-op record that `collectMDSSlowOps` reads
(`op.Description`, `op.TypeData.OpType`, `op.TypeData.FlagPoint`); the
remaining JSON fields are never read by the collector. -/
structure OpRecord where
  Description : List Char
  OpType : List Char
  FlagPoint : List Char
deriving DecidableEq

/-- The fields of `mdsStatus` that `collectMDSSlowOps` reads
(`mss.FsName`, `mss.State`); the remaining JSON fields are never read. -/
structure MDSStatusInfo where
  FsName : List Char
  State : List Char
deriving DecidableEq

/-- The `mdsLabels` value built for one op record inside the per-op loop
of `collectMDSSlowOps`; `none` when the record is a `client_request`
whose description fails `extractOpFromDescription`, in which case the
record is logged and skipped (`continue`). -/
def opLabels (mdsName : List Char) (mss : MDSStatusInfo) (op : OpRecord) : Option mdsLabels :=
  if op.OpType = "client_request".data then
    match extractOpFromDescription op.Description with
    | none => none
    | some opd =>
      some { FSName := mss.FsName, MDSName := mdsName, State := mss.State,
             OpType := op.OpType, FSOpType := opd.fsOpType,
             FlagPoint := op.FlagPoint, Inode := opd.inode }
  else
    some { FSName := mss.FsName, MDSName := mdsName, State := mss.State,
           OpType := op.OpType, FSOpType := [], FlagPoint := op.FlagPoint,
           Inode := [] }

/-- `metricMap.LoadOrStore(key, new(int32))` followed by
`atomic.AddInt32(v, 1)`: increment the counter stored at `key`, creating
it at 1 on first use.  The map is modelled as an association list in
insertion order. -/
def bumpKey (key : List Nat) : List (List Nat × Nat) → List (List Nat × Nat)
  | [] => [(key, 1)]
  | (k, v) :: rest => if k = key then (k, v + 1) :: rest else (k, v) :: bumpKey key rest

/-- The per-op aggregation loop of `collectMDSSlowOps` for one daemon's
batch: skipped records contribute nothing, every other record bumps the
counter keyed by the gob hash of its label tuple. -/
def buildMetricMap (mdsName : List Char) (mss : MDSStatusInfo) (ops : List OpRecord) :
    List (List Nat × Nat) :=
  ops.foldl
    (fun m op =>
      match opLabels mdsName mss op with
      | none => m
      | some ml => bumpKey ml.Hash m)
    []

/-- Metric name of `MDSBlockedOps` (`cephNamespace + "_mds_blocked_ops"`). -/
def mdsBlockedOpsName : List Char := "ceph_mds_blocked_ops".data

/-- The ordered label values passed to `MustNewConstMetric` for the
`mds_blocked_ops` metric: fs, name, state, optype, fs_optype,
flag_point, inode. -/
def labelValuesOf (ml : mdsLabels) : List (List Char) :=
  [ml.FSName, ml.MDSName, ml.State, ml.OpType, ml.FSOpType, ml.FlagPoint, ml.Inode]

/-- One iteration of the `metricMap.Range` emission loop: un-hash the key
into a fresh `mdsLabels` (a decode error is ignored, leaving the zero
value) and build the counter sample. -/
def emitEntry (e : List Nat × Nat) : MetricSample :=
  let ml := (mdsLabels.UnHash e.1).getD {}
  { name := mdsBlockedOpsName, kind := .counter, value := int32wrap e.2,
    labelValues := labelValuesOf ml }

/-- The counter samples the `metricMap.Range` loop offers to the channel
for one daemon's batch of blocked ops. -/
def slowOpSamples (mdsName : List Char) (mss : MDSStatusInfo) (ops : List OpRecord) :
    List MetricSample :=
  (buildMetricMap mdsName mss ops).map emitEntry

/-! ### The health-detail pass of `collectMDSSlowOps` -/

/-- One detail entry of a health check. -/
structure CheckDetailMsg where
  Message : List Char
deriving DecidableEq

/-- One health check of the parsed `ceph health detail` payload.
`Severity`, the summary and `Muted` are decoded but never read by the
collector. -/
structure HealthCheck where
  Severity : List Char := []
  SummaryMessage : List Char := []
  SummaryCount : Int := 0
  Detail : List CheckDetailMsg := []
  Muted : Bool := false
deriving DecidableEq

/-- The parsed `healthDetailCheck` payload; `Checks` is the JSON map of
check name to check, modelled as an association list. -/
structure healthDetailCheck where
  Status : List Char := []
  Checks : List (List Char × HealthCheck) := []
deriving DecidableEq

/-- Go map lookup `hc.Checks[name]`. -/
def lookupCheck (name : List Char) : List (List Char × HealthCheck) → Option HealthCheck
  | [] => none
  | (k, v) :: rest => if k = name then some v else lookupCheck name rest

/-- The per-daemon queries `runMDSStatusFn` / `runBlockedOpsCheckFn` with
their unmarshalling; `none` models a failed command or a payload that
fails to unmarshal. -/
structure DaemonQueries where
  statusOf : List Char → Option MDSStatusInfo
  blockedOpsOf : List Char → Option (List OpRecord)

/-- The `logger.Error` events of the detail loop. -/
inductive CollectErr where
  | malformedMessage (msg : List Char)
  | statusFailed (mds : List Char)
  | blockedOpsFailed (mds : List Char)
deriving DecidableEq

/-- `strings.Split(msg, "(")`: split on every occurrence of `(`. -/
def splitParen : List Char → List (List Char)
  | [] => [[]]
  | c :: cs =>
    match splitParen cs with
    | [] => [[]]
    | h :: t => if c = '(' then [] :: h :: t else (c :: h) :: t

/-- The `for _, cc := range check.Detail` loop of `collectMDSSlowOps`.
A message that does not split into exactly two parts is logged and
skipped (`continue`); a failed status query or blocked-ops query aborts
the whole remaining loop (`return`), discarding nothing already sent. -/
def detailLoop (q : DaemonQueries) : List CheckDetailMsg → List MetricSample × List CollectErr
  | [] => ([], [])
  | cc :: rest =>
    let parts := splitParen cc.Message
    if parts.length ≠ 2 then
      let r := detailLoop q rest
      (r.1, .malformedMessage cc.Message :: r.2)
    else
      let mdsName := parts.headI
      match q.statusOf mdsName with
      | none => ([], [.statusFailed mdsName])
      | some mss =>
        match q.blockedOpsOf mdsName with
        | none => ([], [.blockedOpsFailed mdsName])
        | some ops =>
          let r := detailLoop q rest
          (slowOpSamples mdsName mss ops ++ r.1, r.2)

/-- `collectMDSSlowOps` from the parsed health-detail payload on: when
the `MDS_SLOW_REQUEST` check is absent the pass ends immediately with no
samples and no error (`// No slow requests! Yay!`); otherwise each
detail message is processed in turn.  The result is the list of samples
offered to the collector's channel and the list of logged errors. -/
def collectMDSSlowOps (q : DaemonQueries) (hc : healthDetailCheck) :
    List MetricSample × List CollectErr :=
  match lookupCheck "MDS_SLOW_REQUEST".data hc.Checks with
  | none => ([], [])
  | some check => detailLoop q check.Detail

/-! ### The bounded sample buffer and the scrape path -/

/-- A Go buffered channel of samples: a FIFO buffer of fixed capacity.
`NewMDSCollector` allocates it as `make(chan prometheus.Metric, 100)`. -/
structure Chan where
  cap : Nat
  buf : List MetricSample
deriving DecidableEq

/-- The channel as allocated by `NewMDSCollector`. -/
def newMDSChan : Chan := { cap := 100, buf := [] }

/-- A `select { case m.ch <- s: default: }` send: enqueue when there is
room, otherwise drop the new sample without blocking the writer. -/
def Chan.offer (c : Chan) (s : MetricSample) : Chan :=
  if c.buf.length < c.cap then { c with buf := c.buf ++ [s] } else c

/-- A non-blocking receive (`case cc, ok := <-m.ch` raced against a
`default`). -/
def Chan.tryRecv (c : Chan) : Option (MetricSample × Chan) :=
  match c.buf with
  | [] => none
  | s :: rest => some (s, { c with buf := rest })

/-- The drain loop at the end of `Collect`: repeatedly receive,
forwarding every received sample to the scrape response, and return as
soon as the `default` branch fires (the buffer is empty). -/
def Chan.drain (c : Chan) : List MetricSample × Chan :=
  match _h : c.tryRecv with
  | none => ([], c)
  | some sc =>
    let r := sc.2.drain
    (sc.1 :: r.1, r.2)
termination_by c.buf.length
decreasing_by
  cases hb : c.buf with
  | nil => rw [Chan.tryRecv, hb] at _h; simp at _h
  | cons a l =>
    rw [Chan.tryRecv, hb] at _h
    simp at _h
    rw [← _h]
    simp [hb]

/-- The scheduling state of one `MDSCollector`: its `background` flag and
the number of `backgroundCollect` goroutines started so far. -/
structure CollectorSched where
  background : Bool
  tasks : Nat
deriving DecidableEq

/-- The state of the collector as constructed by `NewMDSCollector`: no
polling task is started at construction. -/
def NewMDSCollectorSched (background : Bool) : CollectorSched :=
  { background := background, tasks := 0 }

/-- The task-spawning effect of one `Collect` call: when `background` is
set, `Collect` runs `go m.backgroundCollect()` unconditionally — the
source has no once-guard — so every call starts one more long-lived
polling goroutine (`backgroundCollect` loops forever and never returns). -/
def collectSpawn (st : CollectorSched) : CollectorSched :=
  if st.background then { st with tasks := st.tasks + 1 } else st

/-! ## Theorems -/

/-! ### C2: end-to-end extraction on the documented example -/

/-- C2: on the concrete slow-op description from the source's own doc
comment, `extractOpFromDescription` succeeds and returns
filesystem-operation subtype `rmdir` and inode `0x10000000030` (and
client id `20001974182`). -/
theorem extract_rmdir_example :
    extractOpFromDescription "client_request(client.20001974182:344151 rmdir #0x10000000030/72a26231-ac24-4f69-9350-8ebc5444c9ea 2024-02-13T22:11:00.196767+0000 caller_uid=0, caller_gid=0\x7b\x7d)".data =
      some { fsOpType := "rmdir".data, inode := "0x10000000030".data,
             clientID := "20001974182".data } := by
  decide

/-! ### C3: a malformed record is skipped and leaves the batch intact -/

/-- C3: a `client_request` record whose description fails extraction is
skipped, and the samples emitted for one daemon's batch are exactly the
samples of the same batch without the malformed record — its presence
never changes what the valid records produce. -/
theorem malformed_record_skipped (mdsName : List Char) (mss : MDSStatusInfo)
    (pre post : List OpRecord) (bad : OpRecord)
    (h1 : bad.OpType = "client_request".data)
    (h2 : extractOpFromDescription bad.Description = none) :
    slowOpSamples mdsName mss (pre ++ bad :: post) =
      slowOpSamples mdsName mss (pre ++ post) := by
  have hskip : opLabels mdsName mss bad = none := by
    simp [opLabels, h1, h2]
  simp [slowOpSamples, buildMetricMap, List.foldl_append, List.foldl_cons, hskip]

theorem malformed_record_skipped_witness :
    extractOpFromDescription "foo".data = none ∧
    slowOpSamples "mds.a".data ⟨"cephfs".data, "active".data⟩
        [⟨"foo".data, "client_request".data, "fp".data⟩,
         ⟨"x".data, "internal_op".data, "fp".data⟩] =
      slowOpSamples "mds.a".data ⟨"cephfs".data, "active".data⟩
        [⟨"x".data, "internal_op".data, "fp".data⟩] :=
  ⟨by decide,
   malformed_record_skipped "mds.a".data ⟨"cephfs".data, "active".data⟩ []
     [⟨"x".data, "internal_op".data, "fp".data⟩]
     ⟨"foo".data, "client_request".data, "fp".data⟩ rfl (by decide)⟩

/-! ### C4: absent MDS_SLOW_REQUEST check means zero samples, no error -/

/-- C4: when the parsed health-detail payload has no `MDS_SLOW_REQUEST`
check, the slow-op pass terminates with zero samples and zero logged
errors. -/
theorem no_slow_request_check_zero_samples (q : DaemonQueries) (hc : healthDetailCheck)
    (h : lookupCheck "MDS_SLOW_REQUEST".data hc.Checks = none) :
    collectMDSSlowOps q hc = ([], []) := by
  simp [collectMDSSlowOps, h]

theorem no_slow_request_check_zero_samples_witness :
    collectMDSSlowOps ⟨fun _ => none, fun _ => none⟩
        { Status := "HEALTH_WARN".data,
          Checks := [("OSD_NEARFULL".data, { Detail := [⟨"osd.1 is near full".data⟩] })] } =
      ([], []) :=
  no_slow_request_check_zero_samples _ _ (by decide)

/-! ### C6: a full buffer drops the newest sample without blocking -/

/-- C6: writing into a buffer already holding exactly its capacity
leaves the buffer unchanged — the already-buffered samples stay in
place and the new sample is discarded (drop-newest, never
evict-oldest); the writer is never blocked since `offer` is total. -/
theorem chan_offer_full_drops_newest (c : Chan) (s : MetricSample)
    (h : c.buf.length = c.cap) : c.offer s = c := by
  simp [Chan.offer, h]

theorem chan_offer_full_drops_newest_witness :
    Chan.offer ⟨2, [⟨"m".data, .counter, 1, []⟩, ⟨"m".data, .counter, 2, []⟩]⟩
        ⟨"m".data, .counter, 3, []⟩ =
      ⟨2, [⟨"m".data, .counter, 1, []⟩, ⟨"m".data, .counter, 2, []⟩]⟩ :=
  chan_offer_full_drops_newest _ _ rfl

/-! ### C7: a drain delivers each buffered sample exactly once -/

theorem chan_drain_eq (cap : Nat) (buf : List MetricSample) :
    Chan.drain ⟨cap, buf⟩ = (buf, ⟨cap, []⟩) := by
  induction buf with
  | nil => rw [Chan.drain]; simp [Chan.tryRecv]
  | cons a l ih => rw [Chan.drain]; simp [Chan.tryRecv, ih]

/-- C7: the drain loop removes every buffered sample exactly once and
delivers exactly the buffered samples, leaving the buffer empty, and a
drain of an empty buffer delivers nothing and returns at once — so a
second drain after a first one delivers nothing (no double delivery). -/
theorem chan_drain_exactly_once (c : Chan) :
    c.drain = (c.buf, { c with buf := [] }) ∧
    Chan.drain { c with buf := ([] : List MetricSample) } =
      ([], { c with buf := ([] : List MetricSample) }) := by
  obtain ⟨cap, buf⟩ := c
  exact ⟨chan_drain_eq cap buf, chan_drain_eq cap []⟩

/-! ### C8: every Collect call on a background collector spawns a task -/

/-- C8 (the code contradicts the claim): `Collect` runs
`go m.backgroundCollect()` unconditionally whenever `background` is set,
so two scrape-triggered `Collect` calls on a freshly constructed
background collector leave two concurrent polling tasks, not at most
one over the process lifetime. -/
theorem collect_twice_spawns_two_tasks :
    (collectSpawn (collectSpawn (NewMDSCollectorSched true))).tasks = 2 := rfl

/-! ### C5: detail-message daemon-name parsing -/

theorem splitParen_ne_nil (l : List Char) : splitParen l ≠ [] := by
  cases l with
  | nil => simp [splitParen]
  | cons c cs =>
    simp only [splitParen]
    cases h : splitParen cs with
    | nil => simp
    | cons h2 t => by_cases hc : c = '(' <;> simp [hc]

theorem splitParen_length (l : List Char) :
    (splitParen l).length = l.count '(' + 1 := by
  induction l with
  | nil => simp [splitParen]
  | cons c cs ih =>
    simp only [splitParen]
    cases h : splitParen cs with
    | nil => exact absurd h (splitParen_ne_nil cs)
    | cons h2 t =>
      rw [h] at ih
      by_cases hc : c = '(' <;> simp_all [List.count_cons]

theorem splitParen_headI (l : List Char) :
    (splitParen l).headI = l.takeWhile (fun c => c ≠ '(') := by
  induction l with
  | nil => simp [splitParen]
  | cons c cs ih =>
    simp only [splitParen]
    cases h : splitParen cs with
    | nil => exact absurd h (splitParen_ne_nil cs)
    | cons h2 t =>
      rw [h] at ih
      by_cases hc : c = '(' <;> simp_all [List.takeWhile]

/-- C5 counterexample: the detail message `a(b(c` contains a `(` — so
splitting on the FIRST `(` would give exactly two parts and the claim
says it must be accepted — but the code splits on EVERY `(`, obtains
three parts, logs the message as malformed and skips it: no daemon is
queried and no sample is produced even though every daemon query in the
environment would have succeeded with a nonempty op batch. -/
theorem detail_message_with_paren_rejected :
    ('(' ∈ "a(b(c".data) ∧ (splitParen "a(b(c".data).length ≠ 2 ∧
    detailLoop
        ⟨fun _ => some ⟨"cephfs".data, "active".data⟩,
         fun _ => some [⟨"d".data, "internal_op".data, "fp".data⟩]⟩
        [⟨"a(b(c".data⟩] =
      ([], [.malformedMessage "a(b(c".data]) := by
  refine ⟨by decide, by decide, ?_⟩
  decide

/-- C5 amended: splitting a detail message on every `(` yields exactly
two parts iff the message contains exactly one `(`; an accepted
message's daemon name is the text before that `(`; and a message of any
other shape is logged as malformed and skipped without stopping the
processing of the remaining detail messages. -/
theorem detail_message_shape (q : DaemonQueries) (msg : List Char)
    (rest : List CheckDetailMsg) :
    ((splitParen msg).length = 2 ↔ msg.count '(' = 1) ∧
    ((splitParen msg).headI = msg.takeWhile (fun c => c ≠ '(')) ∧
    ((splitParen msg).length ≠ 2 →
      detailLoop q (⟨msg⟩ :: rest) =
        ((detailLoop q rest).1, .malformedMessage msg :: (detailLoop q rest).2)) := by
  refine ⟨?_, splitParen_headI msg, ?_⟩
  · rw [splitParen_length]; omega
  · intro h
    simp [detailLoop, h]

theorem detail_message_shape_witness :
    detailLoop ⟨fun _ => none, fun _ => none⟩ [⟨"a(b(c".data⟩] =
      (([] : List MetricSample),
        [CollectErr.malformedMessage "a(b(c".data]) := by
  have h := (detail_message_shape ⟨fun _ => none, fun _ => none⟩ "a(b(c".data []).2.2
    (by decide)
  simpa [detailLoop] using h

/-! ### C9: the gob key is deterministic and collision-free -/

/-- Setting all non-transmitted fields of a struct in order, starting at
field number `idx`: the specification of decoding what `encFields`
transmitted. -/
def setAllFrom : Nat → List (List Char) → mdsLabels → mdsLabels
  | _, [], acc => acc
  | idx, f :: rest, acc => setAllFrom (idx + 1) rest (setField idx f acc)

theorem setField_getField (k : Nat) (ml : mdsLabels) :
    setField k (getField k ml) ml = ml := by
  rcases k with _ | _ | _ | _ | _ | _ | _ | _ | k <;> simp [setField, getField]

theorem getField_setField_ne (k j : Nat) (v : List Char) (ml : mdsLabels)
    (h : k ≠ j) : getField j (setField k v ml) = getField j ml := by
  rcases k with _ | _ | _ | _ | _ | _ | _ | _ | k <;>
    rcases j with _ | _ | _ | _ | _ | _ | _ | _ | j <;>
    simp_all [setField, getField]

theorem getField_default (j : Nat) : getField j ({} : mdsLabels) = [] := by
  rcases j with _ | _ | _ | _ | _ | _ | _ | _ | j <;> simp [getField]

theorem decFields_encFields (fs : List (List Char)) :
    ∀ (idx prev fuel : Nat) (acc : mdsLabels),
      fs.length < fuel → prev < idx →
      (∀ j, idx ≤ j → getField j acc = []) →
      decFields fuel prev acc (encFields idx prev fs) =
        some (setAllFrom idx fs acc) := by
  induction fs with
  | nil =>
    intro idx prev fuel acc hfuel _ _
    obtain ⟨m, rfl⟩ : ∃ m, fuel = m + 1 := ⟨fuel - 1, by omega⟩
    simp [encFields, decFields, setAllFrom]
  | cons f rest ih =>
    intro idx prev fuel acc hfuel hprev hacc
    by_cases hf : f = []
    · subst hf
      rw [encFields, if_pos rfl]
      have hskip : setField idx [] acc = acc := by
        have := hacc idx (Nat.le_refl idx)
        calc setField idx [] acc = setField idx (getField idx acc) acc := by rw [this]
        _ = acc := setField_getField idx acc
      rw [setAllFrom, hskip]
      exact ih (idx + 1) prev fuel acc (by simp at hfuel ⊢; omega) (by omega)
        (fun j hj => hacc j (by omega))
    · rw [encFields, if_neg hf]
      obtain ⟨m, rfl⟩ : ∃ m, fuel = m + 1 := ⟨fuel - 1, by omega⟩
      have hd : ¬(idx - prev = 0) := by omega
      have hlen : ¬((f.map Char.toNat ++ encFields (idx + 1) idx rest).length < f.length) := by
        simp
      rw [decFields, if_neg hd, if_neg hlen]
      have htake : (f.map Char.toNat ++ encFields (idx + 1) idx rest).take f.length =
          f.map Char.toNat := by
        conv_lhs => rw [show f.length = (f.map Char.toNat).length by simp]
        exact List.take_left _ _
      have hdrop : (f.map Char.toNat ++ encFields (idx + 1) idx rest).drop f.length =
          encFields (idx + 1) idx rest := by
        conv_lhs => rw [show f.length = (f.map Char.toNat).length by simp]
        exact List.drop_left _ _
      have hidx : prev + (idx - prev) = idx := by omega
      rw [htake, hdrop, hidx]
      have hmapmap : (f.map Char.toNat).map Char.ofNat = f := by
        simp [List.map_map, Function.comp_def, Char.ofNat_toNat]
      rw [hmapmap, setAllFrom]
      exact ih (idx + 1) idx m (setField idx f acc)
        (by simp at hfuel ⊢; omega) (by omega)
        (fun j hj => by
          rw [getField_setField_ne idx j f acc (by omega)]
          exact hacc j (by omega))

theorem setAllFrom_fields (ml : mdsLabels) :
    setAllFrom 1 ml.fields {} = ml := by
  cases ml
  rfl

/-- `UnHash` inverts `Hash` on every `mdsLabels` value. -/
theorem unHash_hash (ml : mdsLabels) : mdsLabels.UnHash ml.Hash = some ml := by
  rw [mdsLabels.UnHash, mdsLabels.Hash]
  rw [decFields_encFields ml.fields 1 0 ((encFields 1 0 ml.fields).length + 8) {}
    (by simp [mdsLabels.fields]) (by omega) (fun j _ => getField_default j)]
  rw [setAllFrom_fields]

/-- C9: the gob encoding used as the aggregation key is deterministic
and collision-free — two label tuples hash equal iff they are equal —
and `UnHash` recovers the exact tuple from its `Hash` (round-trip). -/
theorem hash_collision_free_roundtrip (a b : mdsLabels) :
    (a.Hash = b.Hash ↔ a = b) ∧ mdsLabels.UnHash a.Hash = some a := by
  refine ⟨⟨fun h => ?_, fun h => by rw [h]⟩, unHash_hash a⟩
  have ha := unHash_hash a
  rw [h, unHash_hash b] at ha
  exact (Option.some.inj ha).symm

theorem hash_collision_free_roundtrip_witness :
    (mdsLabels.Hash { FSName := "cephfs".data, Inode := "0x1".data } =
        mdsLabels.Hash { FSName := "cephfs".data, Inode := "0x2".data } ↔
      ({ FSName := "cephfs".data, Inode := "0x1".data } : mdsLabels) =
        { FSName := "cephfs".data, Inode := "0x2".data }) ∧
    mdsLabels.UnHash
        (mdsLabels.Hash { FSName := "cephfs".data, Inode := "0x1".data }) =
      some { FSName := "cephfs".data, Inode := "0x1".data } :=
  hash_collision_free_roundtrip
    { FSName := "cephfs".data, Inode := "0x1".data }
    { FSName := "cephfs".data, Inode := "0x2".data }

/-! ### C1: one counter sample per distinct label tuple, value = count -/

/-- Association-list lookup by key, mirroring `sync.Map.Load`. -/
def lookupKey (key : List Nat) : List (List Nat × Nat) → Option Nat
  | [] => none
  | (k, v) :: rest => if k = key then some v else lookupKey key rest

theorem lookupKey_bumpKey_self (key : List Nat) (m : List (List Nat × Nat)) :
    lookupKey key (bumpKey key m) = some ((lookupKey key m).getD 0 + 1) := by
  induction m with
  | nil => simp [bumpKey, lookupKey]
  | cons e rest ih =>
    obtain ⟨k, v⟩ := e
    by_cases h : k = key <;> simp [bumpKey, lookupKey, h, ih]

theorem lookupKey_bumpKey_ne (key k2 : List Nat) (m : List (List Nat × Nat))
    (h : k2 ≠ key) : lookupKey k2 (bumpKey key m) = lookupKey k2 m := by
  induction m with
  | nil =>
    simp only [bumpKey, lookupKey]
    rw [if_neg (fun hh => h hh.symm)]
  | cons e rest ih =>
    obtain ⟨k, v⟩ := e
    by_cases hk : k = key
    · subst hk
      simp only [bumpKey, if_pos rfl, lookupKey]
      rw [if_neg (fun hh => h hh.symm), if_neg (fun hh => h hh.symm)]
    · simp only [bumpKey, if_neg hk, lookupKey]
      by_cases hk2 : k = k2
      · rw [if_pos hk2, if_pos hk2]
      · rw [if_neg hk2, if_neg hk2, ih]

theorem keys_bumpKey_mem (key : List Nat) (m : List (List Nat × Nat))
    (h : key ∈ m.map Prod.fst) :
    (bumpKey key m).map Prod.fst = m.map Prod.fst := by
  induction m with
  | nil => simp at h
  | cons e rest ih =>
    obtain ⟨k, v⟩ := e
    by_cases hk : k = key
    · simp [bumpKey, hk]
    · simp only [List.map_cons, List.mem_cons] at h
      rcases h with h | h
      · exact absurd h.symm hk
      · simp [bumpKey, hk, ih h]

theorem keys_bumpKey_not_mem (key : List Nat) (m : List (List Nat × Nat))
    (h : key ∉ m.map Prod.fst) :
    (bumpKey key m).map Prod.fst = m.map Prod.fst ++ [key] := by
  induction m with
  | nil => simp [bumpKey]
  | cons e rest ih =>
    obtain ⟨k, v⟩ := e
    simp only [List.map_cons, List.mem_cons, not_or] at h
    have hk : ¬k = key := fun hh => h.1 hh.symm
    simp [bumpKey, hk, ih h.2]

theorem nodup_keys_bumpKey (key : List Nat) (m : List (List Nat × Nat))
    (hnd : (m.map Prod.fst).Nodup) :
    ((bumpKey key m).map Prod.fst).Nodup := by
  by_cases h : key ∈ m.map Prod.fst
  · rw [keys_bumpKey_mem key m h]; exact hnd
  · rw [keys_bumpKey_not_mem key m h]
    simp [List.nodup_append, hnd, h]

theorem mem_bumpKey (key : List Nat) (m : List (List Nat × Nat)) :
    ∀ e ∈ bumpKey key m, e.1 = key ∨ ∃ e2 ∈ m, e.1 = e2.1 := by
  induction m with
  | nil =>
    intro e he
    simp only [bumpKey, List.mem_singleton] at he
    left; rw [he]
  | cons e0 rest ih =>
    obtain ⟨k, v⟩ := e0
    intro e he
    by_cases h : k = key
    · subst h
      simp only [bumpKey, if_pos rfl] at he
      cases he with
      | head => left; rfl
      | tail _ h1 => right; exact ⟨e, List.mem_cons_of_mem _ h1, rfl⟩
    · simp only [bumpKey, if_neg h] at he
      cases he with
      | head => right; exact ⟨(k, v), List.mem_cons_self _ _, rfl⟩
      | tail _ h1 =>
        rcases ih e h1 with hk | ⟨e2, he3, he4⟩
        · left; exact hk
        · right; exact ⟨e2, List.mem_cons_of_mem _ he3, he4⟩

/-- Invariant of the aggregation map after processing `seen` label
tuples: keys are distinct, every key is the hash of some tuple, and the
counter under a tuple's hash is exactly that tuple's occurrence count. -/
def MapInv (seen : List mdsLabels) (m : List (List Nat × Nat)) : Prop :=
  (m.map Prod.fst).Nodup ∧
  (∀ e ∈ m, ∃ t : mdsLabels, e.1 = t.Hash) ∧
  (∀ t : mdsLabels,
    lookupKey t.Hash m = if seen.count t = 0 then none else some (seen.count t))

theorem hash_inj {a b : mdsLabels} (h : a.Hash = b.Hash) : a = b := by
  have ha := unHash_hash a
  rw [h, unHash_hash b] at ha
  exact (Option.some.inj ha).symm

theorem mapInv_step (seen : List mdsLabels) (m : List (List Nat × Nat))
    (ml : mdsLabels) (hinv : MapInv seen m) :
    MapInv (seen ++ [ml]) (bumpKey ml.Hash m) := by
  obtain ⟨hnd, hkeys, hcount⟩ := hinv
  refine ⟨?_, ?_, ?_⟩
  · exact nodup_keys_bumpKey ml.Hash m hnd
  · intro e he
    rcases mem_bumpKey ml.Hash m e he with h | ⟨e2, he2, he3⟩
    · exact ⟨ml, h⟩
    · obtain ⟨t, ht⟩ := hkeys e2 he2
      exact ⟨t, he3 ▸ ht⟩
  · intro t
    by_cases ht : t = ml
    · subst ht
      rw [lookupKey_bumpKey_self, hcount t]
      by_cases h0 : seen.count t = 0 <;>
        simp [h0, List.count_append, Nat.add_comm]
    · have hne : t.Hash ≠ ml.Hash := fun h => ht (hash_inj h)
      rw [lookupKey_bumpKey_ne _ _ _ hne, hcount t]
      have : (seen ++ [ml]).count t = seen.count t := by
        simp [List.count_append, List.count_singleton, ht]
      rw [this]

theorem mapInv_fold (ls : List mdsLabels) :
    ∀ (seen : List mdsLabels) (m : List (List Nat × Nat)), MapInv seen m →
      MapInv (seen ++ ls) (ls.foldl (fun m ml => bumpKey ml.Hash m) m) := by
  induction ls with
  | nil => intro seen m h; simpa using h
  | cons ml ls ih =>
    intro seen m h
    have h2 := ih (seen ++ [ml]) (bumpKey ml.Hash m) (mapInv_step seen m ml h)
    simpa using h2

theorem mapInv_nil : MapInv [] [] := by
  refine ⟨by simp, by simp, fun t => by simp [lookupKey]⟩

theorem labelValuesOf_inj {a b : mdsLabels} (h : labelValuesOf a = labelValuesOf b) :
    a = b := by
  cases a; cases b
  simp only [labelValuesOf, List.cons.injEq, and_true] at h
  simp_all

theorem buildMetricMap_eq_foldl (mdsName : List Char) (mss : MDSStatusInfo)
    (ops : List OpRecord) :
    buildMetricMap mdsName mss ops =
      (ops.filterMap (opLabels mdsName mss)).foldl
        (fun m ml => bumpKey ml.Hash m) [] := by
  suffices h : ∀ init : List (List Nat × Nat),
      ops.foldl
        (fun m op =>
          match opLabels mdsName mss op with
          | none => m
          | some ml => bumpKey ml.Hash m) init =
      (ops.filterMap (opLabels mdsName mss)).foldl
        (fun m ml => bumpKey ml.Hash m) init by
    exact h []
  induction ops with
  | nil => intro init; simp
  | cons op rest ih =>
    intro init
    cases h : opLabels mdsName mss op <;>
      simp [List.filterMap_cons, h, ih]

theorem emitEntry_hash (t : mdsLabels) (v : Nat) :
    emitEntry (t.Hash, v) =
      { name := mdsBlockedOpsName, kind := .counter, value := int32wrap v,
        labelValues := labelValuesOf t } := by
  simp [emitEntry, unHash_hash]

theorem filter_emit (M : List (List Nat × Nat)) (t : mdsLabels) (N : Nat)
    (h1 : (M.map Prod.fst).Nodup)
    (h2 : lookupKey t.Hash M = some N)
    (h3 : ∀ e ∈ M, ∃ t2 : mdsLabels, e.1 = t2.Hash) :
    (M.map emitEntry).filter (fun s => s.labelValues = labelValuesOf t) =
      [emitEntry (t.Hash, N)] := by
  induction M with
  | nil => simp [lookupKey] at h2
  | cons e M ih =>
    obtain ⟨k, v⟩ := e
    simp only [List.map_cons, List.nodup_cons] at h1
    by_cases hk : k = t.Hash
    · subst hk
      have hv : v = N := by simpa [lookupKey] using h2
      subst hv
      have hpred : (emitEntry (t.Hash, v)).labelValues = labelValuesOf t := by
        rw [emitEntry_hash]
      have hrest : (M.map emitEntry).filter
          (fun s => s.labelValues = labelValuesOf t) = [] := by
        refine List.filter_eq_nil_iff.2 ?_
        intro s hs
        obtain ⟨e2, he2, hfe⟩ := List.mem_map.1 hs
        obtain ⟨t2, ht2⟩ := h3 e2 (List.mem_cons_of_mem _ he2)
        have hk2 : e2.1 = t2.Hash := ht2
        have hne : t2 ≠ t := by
          rintro rfl
          apply h1.1
          rw [← hk2]
          exact List.mem_map_of_mem Prod.fst he2
        rw [← hfe]
        have he2run : emitEntry e2 = emitEntry (t2.Hash, e2.2) := by
          rw [← hk2]
        rw [he2run, emitEntry_hash]
        simp only [decide_eq_true_eq]
        exact fun hl => hne (labelValuesOf_inj hl)
      simp [List.filter_cons, hpred, hrest]
    · have h2r : lookupKey t.Hash M = some N := by simpa [lookupKey, hk] using h2
      obtain ⟨t2, ht2⟩ := h3 (k, v) (List.mem_cons_self _ _)
      have hk2 : k = t2.Hash := ht2
      subst hk2
      have hne : t2 ≠ t := fun h => hk (by rw [h])
      have hpred : ¬((emitEntry (t2.Hash, v)).labelValues = labelValuesOf t) := by
        rw [emitEntry_hash]
        exact fun hl => hne (labelValuesOf_inj hl)
      rw [List.map_cons, List.filter_cons]
      simp only [decide_eq_true_eq, hpred, ite_false]
      exact ih h1.2 h2r (fun e he => h3 e (List.mem_cons_of_mem _ he))

theorem int32wrap_of_lt (n : Nat) (h : n < 2 ^ 31) : int32wrap n = (n : Int) := by
  simp only [int32wrap]
  omega

/-- C1: for one slow-op collection pass over a daemon's batch, every
label tuple occurring among the non-skipped records yields exactly one
counter sample, whose value is the number `N` of records with that exact
tuple — the records are never emitted as separate samples.  (`N` is
accumulated in an `int32`, hence the `2^31` bound.) -/
theorem slowop_tuple_aggregated_once (mdsName : List Char) (mss : MDSStatusInfo)
    (ops : List OpRecord) (t : mdsLabels)
    (hpos : 0 < (ops.filterMap (opLabels mdsName mss)).count t)
    (hbound : (ops.filterMap (opLabels mdsName mss)).count t < 2 ^ 31) :
    (slowOpSamples mdsName mss ops).filter
        (fun s => s.labelValues = labelValuesOf t) =
      [{ name := mdsBlockedOpsName, kind := .counter,
         value := ((ops.filterMap (opLabels mdsName mss)).count t : Int),
         labelValues := labelValuesOf t }] := by
  have hinv := mapInv_fold (ops.filterMap (opLabels mdsName mss)) [] [] mapInv_nil
  simp only [List.nil_append] at hinv
  obtain ⟨hnd, hkeys, hcount⟩ := hinv
  have h2 := hcount t
  rw [if_neg (by omega)] at h2
  rw [slowOpSamples, buildMetricMap_eq_foldl]
  rw [filter_emit _ t _ hnd h2 hkeys]
  simp [emitEntry, unHash_hash, int32wrap_of_lt _ hbound]

theorem slowop_tuple_aggregated_once_witness :
    (slowOpSamples "mds.a".data ⟨"cephfs".data, "active".data⟩
        [⟨[], "internal_op".data, "fp".data⟩, ⟨[], "internal_op".data, "fp".data⟩]).filter
        (fun s => s.labelValues = labelValuesOf
          { FSName := "cephfs".data, MDSName := "mds.a".data, State := "active".data,
            OpType := "internal_op".data, FSOpType := [], FlagPoint := "fp".data,
            Inode := [] }) =
      [{ name := mdsBlockedOpsName, kind := .counter, value := (2 : Int),
         labelValues := labelValuesOf
          { FSName := "cephfs".data, MDSName := "mds.a".data, State := "active".data,
            OpType := "internal_op".data, FSOpType := [], FlagPoint := "fp".data,
            Inode := [] } }] := by
  have h := slowop_tuple_aggregated_once "mds.a".data ⟨"cephfs".data, "active".data⟩
    [⟨[], "internal_op".data, "fp".data⟩, ⟨[], "internal_op".data, "fp".data⟩]
    { FSName := "cephfs".data, MDSName := "mds.a".data, State := "active".data,
      OpType := "internal_op".data, FSOpType := [], FlagPoint := "fp".data,
      Inode := [] } (by decide) (by decide)
  simpa using h

/-! ### C10: no match without a terminator character after the inode -/

/-- Standard semantics of the regex AST: `SemMatch r l` holds when `r`
can consume exactly `l`. -/
inductive SemMatch : RE → List Char → Prop where
  | eps : SemMatch .eps []
  | str (l : List Char) : SemMatch (.str l) l
  | cls {cc : CC} {c : Char} : cc.mem c = true → SemMatch (.cls cc) [c]
  | starG {cc : CC} {l : List Char} : (∀ c ∈ l, cc.mem c = true) →
      SemMatch (.starG cc) l
  | plusG {cc : CC} {l : List Char} : l ≠ [] → (∀ c ∈ l, cc.mem c = true) →
      SemMatch (.plusG cc) l
  | plusL {cc : CC} {l : List Char} : l ≠ [] → (∀ c ∈ l, cc.mem c = true) →
      SemMatch (.plusL cc) l
  | seq {a b : RE} {l1 l2 : List Char} : SemMatch a l1 → SemMatch b l2 →
      SemMatch (.seq a b) (l1 ++ l2)
  | altL {a b : RE} {l : List Char} : SemMatch a l → SemMatch (.alt a b) l
  | altR {a b : RE} {l : List Char} : SemMatch b l → SemMatch (.alt a b) l
  | group {i : Nat} {r : RE} {l : List Char} : SemMatch r l → SemMatch (.group i r) l

theorem stripLit_sound (l : List Char) :
    ∀ (s s2 : List Char), stripLit l s = some s2 → s = l ++ s2 := by
  induction l with
  | nil =>
    intro s s2 h
    simp only [stripLit, Option.some.injEq] at h
    rw [h]; rfl
  | cons a l2 ih =>
    intro s s2 h
    cases s with
    | nil => simp [stripLit] at h
    | cons b s3 =>
      by_cases hab : a = b
      · subst hab
        simp only [stripLit, if_pos rfl] at h
        rw [List.cons_append, ih s3 s2 h]
      · simp [stripLit, hab] at h

theorem starGreedy_sound (cc : CC) (k : List Char → Caps → Option Caps) :
    ∀ (s : List Char) (cp v : Caps),
      starGreedy cc k s cp = some v →
      ∃ l rest, s = l ++ rest ∧ (∀ c ∈ l, cc.mem c = true) ∧ k rest cp = some v := by
  intro s
  induction s with
  | nil =>
    intro cp v h
    exact ⟨[], [], rfl, by simp, by simpa [starGreedy] using h⟩
  | cons c r ih =>
    intro cp v h
    by_cases hm : cc.mem c = true
    · simp only [starGreedy, hm, if_true] at h
      cases hsg : starGreedy cc k r cp with
      | some v2 =>
        rw [hsg] at h
        simp only [Option.some.injEq] at h
        subst h
        obtain ⟨l, rest, hsplit, hall, hk⟩ := ih cp v2 hsg
        refine ⟨c :: l, rest, by rw [List.cons_append, hsplit], ?_, hk⟩
        intro c2 hc2
        rcases List.mem_cons.1 hc2 with rfl | h2
        · exact hm
        · exact hall _ h2
      | none =>
        rw [hsg] at h
        exact ⟨[], c :: r, rfl, by simp, h⟩
    · have h2 : k (c :: r) cp = some v := by simpa [starGreedy, hm] using h
      exact ⟨[], c :: r, rfl, by simp, h2⟩

theorem starLazy_sound (cc : CC) (k : List Char → Caps → Option Caps) :
    ∀ (s : List Char) (cp v : Caps),
      starLazy cc k s cp = some v →
      ∃ l rest, s = l ++ rest ∧ (∀ c ∈ l, cc.mem c = true) ∧ k rest cp = some v := by
  intro s
  induction s with
  | nil =>
    intro cp v h
    simp only [starLazy] at h
    cases hk0 : k [] cp with
    | some v2 =>
      rw [hk0] at h
      simp only [Option.some.injEq] at h
      subst h
      exact ⟨[], [], rfl, by simp, hk0⟩
    | none => rw [hk0] at h; simp at h
  | cons c r ih =>
    intro cp v h
    simp only [starLazy] at h
    cases hk0 : k (c :: r) cp with
    | some v2 =>
      rw [hk0] at h
      simp only [Option.some.injEq] at h
      subst h
      exact ⟨[], c :: r, rfl, by simp, hk0⟩
    | none =>
      rw [hk0] at h
      by_cases hm : cc.mem c = true
      · rw [if_pos hm] at h
        obtain ⟨l, rest, hsplit, hall, hk⟩ := ih cp v h
        refine ⟨c :: l, rest, by rw [List.cons_append, hsplit], ?_, hk⟩
        intro c2 hc2
        rcases List.mem_cons.1 hc2 with rfl | h2
        · exact hm
        · exact hall _ h2
      · rw [if_neg hm] at h
        exact absurd h (by simp)

theorem mat_sound (r : RE) :
    ∀ (s : List Char) (cp : Caps) (k : List Char → Caps → Option Caps) (v : Caps),
      mat r s cp k = some v →
      ∃ l rest cp2, s = l ++ rest ∧ SemMatch r l ∧ k rest cp2 = some v := by
  induction r with
  | eps =>
    intro s cp k v h
    exact ⟨[], s, cp, rfl, .eps, by simpa [mat] using h⟩
  | str l =>
    intro s cp k v h
    cases hst : stripLit l s with
    | none => simp [mat, hst] at h
    | some s2 =>
      have hk : k s2 cp = some v := by simpa [mat, hst] using h
      exact ⟨l, s2, cp, stripLit_sound l s s2 hst, .str l, hk⟩
  | cls cc =>
    intro s cp k v h
    cases s with
    | nil => simp [mat] at h
    | cons c r =>
      by_cases hm : cc.mem c = true
      · have hk : k r cp = some v := by simpa [mat, hm] using h
        exact ⟨[c], r, cp, rfl, .cls hm, hk⟩
      · simp [mat, hm] at h
  | starG cc =>
    intro s cp k v h
    have h2 : starGreedy cc k s cp = some v := by simpa [mat] using h
    obtain ⟨l, rest, hs, hall, hk⟩ := starGreedy_sound cc k s cp v h2
    exact ⟨l, rest, cp, hs, .starG hall, hk⟩
  | plusG cc =>
    intro s cp k v h
    cases s with
    | nil => simp [mat] at h
    | cons c r =>
      by_cases hm : cc.mem c = true
      · have h2 : starGreedy cc k r cp = some v := by simpa [mat, hm] using h
        obtain ⟨l, rest, hs, hall, hk⟩ := starGreedy_sound cc k r cp v h2
        refine ⟨c :: l, rest, cp, by rw [List.cons_append, hs], .plusG (by simp) ?_, hk⟩
        intro c2 hc2
        rcases List.mem_cons.1 hc2 with rfl | h3
        · exact hm
        · exact hall _ h3
      · simp [mat, hm] at h
  | plusL cc =>
    intro s cp k v h
    cases s with
    | nil => simp [mat] at h
    | cons c r =>
      by_cases hm : cc.mem c = true
      · have h2 : starLazy cc k r cp = some v := by simpa [mat, hm] using h
        obtain ⟨l, rest, hs, hall, hk⟩ := starLazy_sound cc k r cp v h2
        refine ⟨c :: l, rest, cp, by rw [List.cons_append, hs], .plusL (by simp) ?_, hk⟩
        intro c2 hc2
        rcases List.mem_cons.1 hc2 with rfl | h3
        · exact hm
        · exact hall _ h3
      · simp [mat, hm] at h
  | seq a b iha ihb =>
    intro s cp k v h
    have h2 : mat a s cp (fun s2 cp2 => mat b s2 cp2 k) = some v := by
      simpa [mat] using h
    obtain ⟨l1, rest1, cp2, hs1, hm1, hk1⟩ := iha s cp _ v h2
    obtain ⟨l2, rest, cp3, hs2, hm2, hk2⟩ := ihb rest1 cp2 k v hk1
    exact ⟨l1 ++ l2, rest, cp3, by rw [hs1, hs2, List.append_assoc], .seq hm1 hm2, hk2⟩
  | alt a b iha ihb =>
    intro s cp k v h
    cases hma : mat a s cp k with
    | some v2 =>
      have hv : v2 = v := by simpa [mat, hma] using h
      subst hv
      obtain ⟨l, rest, cp2, hs, hm, hk⟩ := iha s cp k v2 hma
      exact ⟨l, rest, cp2, hs, .altL hm, hk⟩
    | none =>
      have h2 : mat b s cp k = some v := by simpa [mat, hma] using h
      obtain ⟨l, rest, cp2, hs, hm, hk⟩ := ihb s cp k v h2
      exact ⟨l, rest, cp2, hs, .altR hm, hk⟩
  | group i r ihr =>
    intro s cp k v h
    have h2 : mat r s cp
        (fun s2 cp2 => k s2 (setCap i (s.take (s.length - s2.length)) cp2)) = some v := by
      simpa [mat] using h
    obtain ⟨l, rest, cp2, hs, hm, hk⟩ := ihr s cp _ v h2
    exact ⟨l, rest, setCap i (s.take (s.length - rest.length)) cp2, hs, .group hm, hk⟩

theorem reFind_sound (r : RE) :
    ∀ (s : List Char) (cp : Caps), reFind r s = some cp →
      ∃ pre l rest, s = pre ++ l ++ rest ∧ SemMatch r l := by
  intro s
  induction s with
  | nil =>
    intro cp h
    have h2 : mat r [] {} (fun _ c2 => some c2) = some cp := by simpa [reFind] using h
    obtain ⟨l, rest, _, hs, hm, _⟩ := mat_sound r [] {} _ cp h2
    exact ⟨[], l, rest, by simpa using hs, hm⟩
  | cons c t ih =>
    intro cp h
    cases hmat : mat r (c :: t) {} (fun _ c2 => some c2) with
    | some cp2 =>
      obtain ⟨l, rest, _, hs, hm, _⟩ := mat_sound r (c :: t) {} _ cp2 hmat
      exact ⟨[], l, rest, by simpa using hs, hm⟩
    | none =>
      have h2 : reFind r t = some cp := by simpa [reFind, hmat] using h
      obtain ⟨pre, l, rest, hs, hm⟩ := ih cp h2
      exact ⟨c :: pre, l, rest, by simp [hs], hm⟩

theorem semMatch_seq_inv {a b : RE} {l : List Char} (h : SemMatch (.seq a b) l) :
    ∃ l1 l2, l = l1 ++ l2 ∧ SemMatch a l1 ∧ SemMatch b l2 := by
  cases h with
  | seq h1 h2 => exact ⟨_, _, rfl, h1, h2⟩

theorem semMatch_str_inv {l0 l : List Char} (h : SemMatch (.str l0) l) : l = l0 := by
  cases h; rfl

theorem semMatch_cls_inv {cc : CC} {l : List Char} (h : SemMatch (.cls cc) l) :
    ∃ c, l = [c] ∧ cc.mem c = true := by
  cases h with
  | cls hm => exact ⟨_, rfl, hm⟩

/-- Any successful extraction exhibits, somewhere after a `#` of the
description, a character that is neither a letter, a digit nor `:`. -/
theorem extract_success_hash_terminator {desc : List Char} {v : opDesc}
    (h : extractOpFromDescription desc = some v) :
    ∃ A B c, desc = A ++ '#' :: B ∧ c ∈ B ∧ isNotAlnumColonC c = true := by
  have hrf : ∃ caps, reFind descRegex desc = some caps := by
    rw [extractOpFromDescription] at h
    cases hrf : reFind descRegex desc with
    | none => rw [hrf] at h; simp at h
    | some caps => exact ⟨caps, rfl⟩
  obtain ⟨caps, hrf⟩ := hrf
  obtain ⟨pre, l, rest, hs, hm⟩ := reFind_sound descRegex desc caps hrf
  rw [descRegex] at hm
  obtain ⟨s1, r1, rfl, hlit, hm1⟩ := semMatch_seq_inv hm
  obtain ⟨s2, r2, rfl, hg1, hm2⟩ := semMatch_seq_inv hm1
  obtain ⟨s3, r3, rfl, hcol, hm3⟩ := semMatch_seq_inv hm2
  obtain ⟨s4, r4, rfl, hg2, hm4⟩ := semMatch_seq_inv hm3
  obtain ⟨s5, r5, rfl, hsp1, hm5⟩ := semMatch_seq_inv hm4
  obtain ⟨s6, r6, rfl, hg3, hm6⟩ := semMatch_seq_inv hm5
  obtain ⟨s7, r7, rfl, hsp2, hm7⟩ := semMatch_seq_inv hm6
  obtain ⟨s8, r8, rfl, hdots, hm8⟩ := semMatch_seq_inv hm7
  obtain ⟨s9, r9, rfl, hhash, hm9⟩ := semMatch_seq_inv hm8
  obtain ⟨s10, r10, rfl, hinode, hm10⟩ := semMatch_seq_inv hm9
  obtain ⟨s11, s12, rfl, hterm, hstar⟩ := semMatch_seq_inv hm10
  have hs9 : s9 = ['#'] := semMatch_str_inv hhash
  obtain ⟨c, hs11, hmem⟩ := semMatch_cls_inv hterm
  subst hs9
  subst hs11
  refine ⟨pre ++ s1 ++ s2 ++ s3 ++ s4 ++ s5 ++ s6 ++ s7 ++ s8,
          s10 ++ c :: (s12 ++ rest), c, ?_, ?_, ?_⟩
  · rw [hs]
    simp [List.append_assoc]
  · simp
  · simpa [CC.mem] using hmem

theorem hash_split_unique :
    ∀ (A A2 B B2 : List Char), A ++ '#' :: B = A2 ++ '#' :: B2 →
      '#' ∉ A → '#' ∉ A2 → A = A2 ∧ B = B2 := by
  intro A
  induction A with
  | nil =>
    intro A2 B B2 h _ hA2
    cases A2 with
    | nil =>
      simp only [List.nil_append, List.cons.injEq] at h
      exact ⟨rfl, h.2⟩
    | cons a2 A2t =>
      simp only [List.nil_append, List.cons_append, List.cons.injEq] at h
      exact absurd (by rw [h.1]; exact List.mem_cons_self _ _) hA2
  | cons a At ih =>
    intro A2 B B2 h hA hA2
    cases A2 with
    | nil =>
      simp only [List.cons_append, List.nil_append, List.cons.injEq] at h
      exact absurd (by rw [← h.1]; exact List.mem_cons_self _ _) hA
    | cons a2 A2t =>
      simp only [List.cons_append, List.cons.injEq] at h
      have hAt : '#' ∉ At := fun hx => hA (List.mem_cons_of_mem _ hx)
      have hA2t : '#' ∉ A2t := fun hx => hA2 (List.mem_cons_of_mem _ hx)
      obtain ⟨he1, he2⟩ := ih A2t B B2 h.2 hAt hA2t
      exact ⟨by rw [h.1, he1], he2⟩

/-- C10: `extractOpFromDescription` fails on every description whose
(unique) inode marker `#` is followed only by letters, digits and `:` —
the grammar demands at least one further character that is none of
those.  In particular a description whose client id does not start with
a decimal digit is rejected. -/
theorem extract_error_without_terminator :
    (∀ A B : List Char, '#' ∉ A → '#' ∉ B →
      (∀ c ∈ B, isNotAlnumColonC c = false) →
      extractOpFromDescription (A ++ '#' :: B) = none) ∧
    extractOpFromDescription
        "client_request(client.x0001974182:344151 rmdir #0x10000000030/72a)".data =
      none := by
  constructor
  · intro A B hA hB hall
    cases hex : extractOpFromDescription (A ++ '#' :: B) with
    | none => rfl
    | some v =>
      exfalso
      obtain ⟨A2, B2, c, hsplit, hc, hmem⟩ := extract_success_hash_terminator hex
      have hcount : (A ++ '#' :: B).count '#' = 1 := by
        rw [List.count_append, List.count_cons]
        rw [List.count_eq_zero.2 hA, List.count_eq_zero.2 hB]
        simp
      rw [hsplit] at hcount
      rw [List.count_append, List.count_cons] at hcount
      simp only [beq_self_eq_true, if_true] at hcount
      have hA2 : '#' ∉ A2 := by
        rw [← List.count_eq_zero]
        omega
      obtain ⟨_, hBB⟩ := hash_split_unique A A2 B B2 hsplit hA hA2
      rw [← hBB] at hc
      rw [hall c hc] at hmem
      exact Bool.false_ne_true hmem
  · decide

theorem extract_error_without_terminator_witness :
    extractOpFromDescription
        ("client_request(client.20001974182:344151 rmdir ".data ++
          '#' :: "0x10000000030".data) = none :=
  extract_error_without_terminator.1
    "client_request(client.20001974182:344151 rmdir ".data
    "0x10000000030".data (by decide) (by decide) (by decide)

end CephExporter
